import Mathlib

/-
Verification of the keysmash typing-test engine (src/main.go) against its
natural-language specification.

Strings are modelled at the granularity the Go code actually uses:
the line wrapper works on runes (Lean Char), so wrapped text is List Char;
the session state machine works on Go strings, i.e. byte sequences, so the
reference text and the user input are List Nat (each entry a byte value),
and appending a typed rune appends its UTF-8 encoding.
-/

namespace Keysmash

/-- Model of runewidth.RuneWidth from the external go-runewidth dependency
(East-Asian-width classification, default context): control characters and
combining or zero-width marks have width 0, East Asian wide and fullwidth
ranges have width 2, everything else width 1. Only representative ranges of
the library table are included; every value is 0, 1 or 2 as in the library. -/
def runeWidth (c : Char) : Nat :=
  let n := c.toNat
  if n < 32 ∨ n = 127 then 0
  else if (0x300 ≤ n ∧ n ≤ 0x36F) ∨ (0x200B ≤ n ∧ n ≤ 0x200F) ∨
          (0xFE00 ≤ n ∧ n ≤ 0xFE0F) then 0
  else if (0x1100 ≤ n ∧ n ≤ 0x115F) ∨ (0x2E80 ≤ n ∧ n ≤ 0x4DBF) ∨
          (0x4E00 ≤ n ∧ n ≤ 0x9FFF) ∨ (0xA000 ≤ n ∧ n ≤ 0xA4CF) ∨
          (0xAC00 ≤ n ∧ n ≤ 0xD7A3) ∨ (0xF900 ≤ n ∧ n ≤ 0xFAFF) ∨
          (0xFE30 ≤ n ∧ n ≤ 0xFE4F) ∨ (0xFF00 ≤ n ∧ n ≤ 0xFF60) ∨
          (0xFFE0 ≤ n ∧ n ≤ 0xFFE6) ∨ (0x20000 ≤ n ∧ n ≤ 0x2FFFD) ∨
          (0x30000 ≤ n ∧ n ≤ 0x3FFFD) then 2
  else 1

/-- Model of runewidth.StringWidth: the sum of the per-rune display widths. -/
def strWidth (s : List Char) : Nat :=
  (s.map runeWidth).sum

/-- Model of Go unicode.IsSpace (the White_Space property), used by
strings.Fields inside wrapText. -/
def goIsSpace (c : Char) : Bool :=
  let n := c.toNat
  decide ((9 ≤ n ∧ n ≤ 13) ∨ n = 32 ∨ n = 133 ∨ n = 160 ∨ n = 5760 ∨
    (8192 ≤ n ∧ n ≤ 8202) ∨ n = 8232 ∨ n = 8233 ∨ n = 8239 ∨ n = 8287 ∨
    n = 12288)

/-- Model of Go strings.Split(text, newline): the (possibly empty) chunks
between newline separators; the empty text yields a single empty chunk. -/
def splitNl : List Char → List (List Char)
  | [] => [[]]
  | c :: rest =>
    if c = '\n' then [] :: splitNl rest
    else
      match splitNl rest with
      | [] => [[c]]
      | p :: ps => (c :: p) :: ps

/-- Accumulator-based worker for fields: acc holds the current in-progress
word reversed. -/
def fieldsAux (acc : List Char) : List Char → List (List Char)
  | [] => if acc = [] then [] else [acc.reverse]
  | c :: rest =>
    if goIsSpace c then
      if acc = [] then fieldsAux [] rest else acc.reverse :: fieldsAux [] rest
    else fieldsAux (c :: acc) rest

/-- Model of Go strings.Fields: splits around every maximal run of
whitespace, returning only the non-empty words. -/
def fields (s : List Char) : List (List Char) :=
  fieldsAux [] s

/-- Loop state of wrapText: the emitted lines, the current line being
assembled, and its running display width (Go locals lines, currentLine,
currentWidth - also lineRunes and lineWidth inside the split loop). -/
structure WrapAcc where
  lines : List (List Char)
  cur : List Char
  curW : Nat
deriving DecidableEq

/-- One iteration of the character-by-character force-split loop in
wrapText (main.go lines 624-634). -/
def splitStep (width : Nat) (a : WrapAcc) (r : Char) : WrapAcc :=
  if width < a.curW + runeWidth r then
    ⟨a.lines ++ [a.cur], [r], runeWidth r⟩
  else
    ⟨a.lines, a.cur ++ [r], a.curW + runeWidth r⟩

/-- The force-split loop over a whole word, started from fresh lineRunes
and lineWidth (main.go lines 620-634). -/
def splitWord (width : Nat) (lines : List (List Char)) (word : List Char) :
    WrapAcc :=
  word.foldl (splitStep width) ⟨lines, [], 0⟩

/-- One iteration of the word loop in wrapText (main.go lines 608-661). -/
def wordStep (width : Nat) (a : WrapAcc) (word : List Char) : WrapAcc :=
  let ww := strWidth word
  if width < ww then
    let lines1 := if a.cur = [] then a.lines else a.lines ++ [a.cur]
    let r := splitWord width lines1 word
    if r.cur = [] then ⟨r.lines, [], 0⟩ else r
  else
    let spaceNeeded := if 0 < a.curW then 1 else 0
    if a.curW + spaceNeeded + ww ≤ width then
      if 0 < a.curW then ⟨a.lines, a.cur ++ ' ' :: word, a.curW + 1 + ww⟩
      else ⟨a.lines, a.cur ++ word, a.curW + ww⟩
    else ⟨a.lines ++ [a.cur], word, ww⟩

/-- Processing of one paragraph by wrapText (main.go lines 593-666): an
empty paragraph, or one containing only whitespace, contributes a single
empty line; otherwise its words are packed greedily. -/
def wrapParagraph (width : Nat) (lines : List (List Char)) (p : List Char) :
    List (List Char) :=
  if p = [] then lines ++ [[]]
  else
    let ws := fields p
    if ws = [] then lines ++ [[]]
    else
      let r := ws.foldl (wordStep width) ⟨lines, [], 0⟩
      if r.cur = [] then r.lines else r.lines ++ [r.cur]

/-- Model of wrapText (main.go lines 587-669). -/
def wrapText (text : List Char) (width : Nat) : List (List Char) :=
  (splitNl text).foldl (wrapParagraph width) []

/-- UTF-8 encoding of one code point, as byte values: what Go appends to
userInput by the statement userInput += string(r). -/
def utf8Bytes (c : Char) : List Nat :=
  let n := c.toNat
  if n < 0x80 then [n]
  else if n < 0x800 then [0xC0 + n / 0x40, 0x80 + n % 0x40]
  else if n < 0x10000 then
    [0xE0 + n / 0x1000, 0x80 + n / 0x40 % 0x40, 0x80 + n % 0x40]
  else
    [0xF0 + n / 0x40000, 0x80 + n / 0x1000 % 0x40, 0x80 + n / 0x40 % 0x40,
     0x80 + n % 0x40]

/-- The session state (struct TestState, main.go lines 18-27). Go strings
are byte sequences, so referenceText and userInput are lists of byte
values; len, indexing and slicing in runTypingTest are byte-level.
Timestamps are abstracted as naturals supplied with each event. -/
structure TestState where
  referenceText : List Nat
  userInput : List Nat
  errors : Nat
  startTime : Nat
  endTime : Nat
  testStarted : Bool
  testComplete : Bool
deriving DecidableEq

/-- The key events runTypingTest distinguishes (main.go lines 190-245):
escape, backspace (KeyBackspace or KeyBackspace2), enter, a rune key, and
any other key, which matches no branch. -/
inductive KeyEvent where
  | escape
  | backspace
  | enter
  | rune (c : Char)
  | other
deriving DecidableEq

/-- A fresh session as built by selectRandomTest (main.go lines 166-173):
empty input, zero errors, flags down, zero-value timestamps. -/
def initState (ref : List Nat) : TestState :=
  { referenceText := ref, userInput := [], errors := 0, startTime := 0,
    endTime := 0, testStarted := false, testComplete := false }

/-- The start-of-test transition guard shared by the enter and rune
branches (main.go lines 202-205 and 221-224). -/
def startIfNeeded (s : TestState) (now : Nat) : TestState :=
  if s.testStarted then s
  else { s with testStarted := true, startTime := now }

/-- The error test runTypingTest applies right after an append: the byte
just appended (at index len(userInput)-1) is compared to the reference
byte at the same index when in range; any byte beyond the reference
length counts as a mismatch (main.go lines 210-218 and 228-237). -/
def appendMismatch (ref input' : List Nat) : Bool :=
  if input'.length ≤ ref.length then
    decide (input'.getD (input'.length - 1) 0 ≠ ref.getD (input'.length - 1) 0)
  else true

/-- One iteration of the key-event dispatch of runTypingTest (main.go
lines 190-245), given the current wall-clock reading now. Escape returns
with the state unchanged; backspace drops the last byte when input is
non-empty; enter appends the newline byte 10 and scores it against the
reference, without any completion check; a non-zero rune appends its UTF-8
bytes, scores the last byte, then checks the completion condition. -/
def stepKey (s : TestState) (ev : KeyEvent) (now : Nat) : TestState :=
  match ev with
  | .escape => s
  | .other => s
  | .backspace =>
    if 0 < s.userInput.length then { s with userInput := s.userInput.dropLast }
    else s
  | .enter =>
    let s1 := startIfNeeded s now
    let s2 := { s1 with userInput := s1.userInput ++ [10] }
    if s2.userInput.length ≤ s2.referenceText.length then
      if s2.referenceText.getD (s2.userInput.length - 1) 0 ≠ 10 then
        { s2 with errors := s2.errors + 1 }
      else s2
    else { s2 with errors := s2.errors + 1 }
  | .rune c =>
    if c.toNat = 0 then s
    else
      let s1 := startIfNeeded s now
      let s2 := { s1 with userInput := s1.userInput ++ utf8Bytes c }
      let s3 :=
        if s2.userInput.length ≤ s2.referenceText.length then
          if s2.userInput.getD (s2.userInput.length - 1) 0 ≠
              s2.referenceText.getD (s2.userInput.length - 1) 0 then
            { s2 with errors := s2.errors + 1 }
          else s2
        else { s2 with errors := s2.errors + 1 }
      if s3.userInput.length = s3.referenceText.length ∧
          s3.userInput = s3.referenceText then
        { s3 with testComplete := true, endTime := now }
      else s3

/-- Variant of stepKey in which every string indexing of runTypingTest is
bounds-checked: an out-of-range index yields none instead of a default.
Used to state that the Go indexing expressions never fault. -/
def stepKeyChecked (s : TestState) (ev : KeyEvent) (now : Nat) :
    Option TestState :=
  match ev with
  | .escape => some s
  | .other => some s
  | .backspace =>
    some (if 0 < s.userInput.length then
            { s with userInput := s.userInput.dropLast }
          else s)
  | .enter =>
    let s1 := startIfNeeded s now
    let s2 := { s1 with userInput := s1.userInput ++ [10] }
    if s2.userInput.length ≤ s2.referenceText.length then
      match s2.referenceText.get? (s2.userInput.length - 1) with
      | none => none
      | some b =>
        some (if b ≠ 10 then { s2 with errors := s2.errors + 1 } else s2)
    else some { s2 with errors := s2.errors + 1 }
  | .rune c =>
    if c.toNat = 0 then some s
    else
      let s1 := startIfNeeded s now
      let s2 := { s1 with userInput := s1.userInput ++ utf8Bytes c }
      let sc :=
        if s2.userInput.length ≤ s2.referenceText.length then
          match s2.userInput.get? (s2.userInput.length - 1),
              s2.referenceText.get? (s2.userInput.length - 1) with
          | some a, some b =>
            some (if a ≠ b then { s2 with errors := s2.errors + 1 } else s2)
          | _, _ => none
        else some { s2 with errors := s2.errors + 1 }
      match sc with
      | none => none
      | some s3 =>
        some (if s3.userInput.length = s3.referenceText.length ∧
                  s3.userInput = s3.referenceText then
                { s3 with testComplete := true, endTime := now }
              else s3)

/-- The event loop of runTypingTest over a timed event trace: it stops
consuming events once the state is complete (the rune branch returns on
completion) or when escape arrives. -/
def runSession (s : TestState) : List (KeyEvent × Nat) → TestState
  | [] => s
  | (ev, t) :: rest =>
    if s.testComplete then s
    else
      match ev with
      | .escape => s
      | _ => runSession (stepKey s ev t) rest

/-- Ghost ledger for the error count: it replays only the input evolution
of a trace (which does not depend on the error count) and counts the
append operations whose appended byte fails the code's mismatch test at
its position, stopping where runSession stops. -/
def mismCount (ref input : List Nat) (complete : Bool) :
    List (KeyEvent × Nat) → Nat
  | [] => 0
  | (ev, _) :: rest =>
    if complete then 0
    else
      match ev with
      | .escape => 0
      | .other => mismCount ref input complete rest
      | .backspace => mismCount ref input.dropLast complete rest
      | .enter =>
        (if appendMismatch ref (input ++ [10]) then 1 else 0) +
          mismCount ref (input ++ [10]) complete rest
      | .rune c =>
        if c.toNat = 0 then mismCount ref input complete rest
        else
          (if appendMismatch ref (input ++ utf8Bytes c) then 1 else 0) +
            mismCount ref (input ++ utf8Bytes c)
              (decide (input ++ utf8Bytes c = ref)) rest

/-- The session states the engine can reach: a fresh state, or one more
key event applied to a reachable, not-yet-complete state at a time no
earlier than every previous event. The second index is a lower bound on
the times of subsequent events. -/
inductive Reachable : TestState → Nat → Prop where
  | init (ref : List Nat) (t0 : Nat) : Reachable (initState ref) t0
  | tail {s : TestState} {t : Nat} (ev : KeyEvent) (t' : Nat) :
      Reachable s t → s.testComplete = false → t ≤ t' →
      Reachable (stepKey s ev t') t'

/-- The bottom progress-bar percentage of renderScreen (main.go lines
516-519): integer percentage with no upper clamp, 0 for an empty
reference. -/
def progressPercent (inputLen refLen : Nat) : Nat :=
  if 0 < refLen then inputLen * 100 / refLen else 0

/-- Modelled from the spec: completionPercent(inputLength,
referenceLength) = min(100, floor(100 * inputLength / referenceLength)),
the clamped formula of section 4.4, stated for comparison with the
progress-bar computation actually in renderScreen. -/
def completionPercentSpec (inputLen refLen : Nat) : Nat :=
  min 100 (100 * inputLen / refLen)

/-- The WPM computation of renderScreen (main.go lines 337-340), with
float64 arithmetic modelled exactly over the rationals: Go divides the
byte count by 5 in integer arithmetic before converting to float. -/
def wpmCalc (charCount : Nat) (elapsed : ℚ) : ℚ :=
  let raw : ℚ := ((charCount / 5 : Nat) : ℚ) / (elapsed / 60)
  if raw < 0 ∨ elapsed < 1 then 0 else raw

/-- A non-empty token free of whitespace characters, as produced by
strings.Fields. -/
def NoWS (w : List Char) : Prop :=
  w ≠ [] ∧ ∀ c ∈ w, goIsSpace c = false

/-- Join of tokens with a single plain space between adjacent tokens. -/
def joinSp : List (List Char) → List Char
  | [] => []
  | [w] => w
  | w :: ws => w ++ ' ' :: joinSp ws

/-- A clean display line: some sequence of non-empty whitespace-free
tokens separated by exactly one space each - hence no leading or trailing
whitespace, no whitespace other than the single separating spaces, and
every whitespace run of the source collapsed. -/
def Clean (l : List Char) : Prop :=
  ∃ ws : List (List Char), (∀ w ∈ ws, NoWS w) ∧ l = joinSp ws

/-- Invariant of the force-split loop: emitted lines are within the
budget, and the running width is the width of the current fragment and
within the budget. -/
def WidthInv (width : Nat) (a : WrapAcc) : Prop :=
  (∀ l ∈ a.lines, strWidth l ≤ width) ∧ a.curW = strWidth a.cur ∧
    a.curW ≤ width

/-- Invariant of the force-split loop for line cleanliness: emitted lines
are clean and the current fragment is whitespace-free. -/
def SplitInv (a : WrapAcc) : Prop :=
  (∀ l ∈ a.lines, Clean l) ∧ (∀ c ∈ a.cur, goIsSpace c = false) ∧
    a.curW = strWidth a.cur

/-- Invariant of the word-packing loop for line cleanliness: emitted
lines and the current line are clean, and the running width is the
current line's width. -/
def CleanInv (a : WrapAcc) : Prop :=
  (∀ l ∈ a.lines, Clean l) ∧ Clean a.cur ∧ a.curW = strWidth a.cur

end Keysmash

namespace Keysmash

/-! Basic lemmas about widths. -/

theorem runeWidth_le_two (c : Char) : runeWidth c ≤ 2 := by
  unfold runeWidth
  dsimp only
  split
  · omega
  split
  · omega
  split <;> omega

theorem runeWidth_space : runeWidth ' ' = 1 := by decide

theorem strWidth_nil : strWidth [] = 0 := rfl

theorem strWidth_append (s t : List Char) :
    strWidth (s ++ t) = strWidth s + strWidth t := by
  simp [strWidth]

theorem strWidth_concat (s : List Char) (c : Char) :
    strWidth (s ++ [c]) = strWidth s + runeWidth c := by
  simp [strWidth]

theorem strWidth_cons (c : Char) (s : List Char) :
    strWidth (c :: s) = runeWidth c + strWidth s := by
  simp [strWidth]

theorem strWidth_singleton (c : Char) : strWidth [c] = runeWidth c := by
  simp [strWidth]

/-! Width invariant through the wrapping loops (claim C1's machinery). -/

theorem splitStep_widthInv {width : Nat} {a : WrapAcc} {r : Char}
    (hr : runeWidth r ≤ width) (h : WidthInv width a) :
    WidthInv width (splitStep width a r) := by
  obtain ⟨lines, cur, cw⟩ := a
  obtain ⟨hl, hw, hb⟩ := h
  dsimp [WidthInv] at *
  unfold splitStep
  dsimp only
  split
  · refine ⟨?_, by simp [strWidth_singleton], hr⟩
    intro l hmem
    simp only [List.mem_append, List.mem_singleton] at hmem
    rcases hmem with h1 | rfl
    · exact hl l h1
    · omega
  · exact ⟨hl, show cw + runeWidth r = strWidth (cur ++ [r]) by
      simp [strWidth_concat, hw], show cw + runeWidth r ≤ width by omega⟩

theorem foldl_splitStep_widthInv {width : Nat}
    (hw : ∀ c : Char, runeWidth c ≤ width) :
    ∀ (word : List Char) (a : WrapAcc), WidthInv width a →
      WidthInv width (word.foldl (splitStep width) a)
  | [], _, h => h
  | r :: rest, a, h =>
    foldl_splitStep_widthInv hw rest (splitStep width a r)
      (splitStep_widthInv (hw r) h)

theorem splitWord_widthInv {width : Nat}
    (hw : ∀ c : Char, runeWidth c ≤ width) (lines : List (List Char))
    (word : List Char) (hl : ∀ l ∈ lines, strWidth l ≤ width) :
    WidthInv width (splitWord width lines word) :=
  foldl_splitStep_widthInv hw word _ ⟨hl, rfl, Nat.zero_le width⟩

theorem wordStep_widthInv {width : Nat} {a : WrapAcc} {word : List Char}
    (hw : ∀ c : Char, runeWidth c ≤ width) (h : WidthInv width a) :
    WidthInv width (wordStep width a word) := by
  obtain ⟨lines, cur, cw⟩ := a
  obtain ⟨hl, hcw, hb⟩ := h
  dsimp [WidthInv] at *
  unfold wordStep
  dsimp only
  split
  · rename_i hwide
    set lines1 := if cur = [] then lines else lines ++ [cur] with hdef
    have hlines1 : ∀ l ∈ lines1, strWidth l ≤ width := by
      rw [hdef]
      split
      · exact hl
      · intro l hmem
        simp only [List.mem_append, List.mem_singleton] at hmem
        rcases hmem with h1 | rfl
        · exact hl l h1
        · omega
    obtain ⟨hl2, hw2, hb2⟩ := splitWord_widthInv hw lines1 word hlines1
    split
    · exact ⟨hl2, rfl, Nat.zero_le width⟩
    · exact ⟨hl2, hw2, hb2⟩
  · rename_i hww
    split
    · rename_i hpos
      split
      · rename_i hfit
        exact ⟨hl, show cw + 1 + strWidth word = strWidth (cur ++ ' ' :: word)
          by simp [strWidth_append, strWidth_cons, runeWidth_space, hcw]; omega,
          show cw + 1 + strWidth word ≤ width by omega⟩
      · rename_i hfit
        refine ⟨?_, rfl, show strWidth word ≤ width by omega⟩
        intro l hmem
        simp only [List.mem_append, List.mem_singleton] at hmem
        rcases hmem with h1 | rfl
        · exact hl l h1
        · omega
    · rename_i hpos
      split
      · rename_i hfit
        exact ⟨hl, show cw + strWidth word = strWidth (cur ++ word)
          by simp [strWidth_append, hcw],
          show cw + strWidth word ≤ width by omega⟩
      · rename_i hfit
        refine ⟨?_, rfl, show strWidth word ≤ width by omega⟩
        intro l hmem
        simp only [List.mem_append, List.mem_singleton] at hmem
        rcases hmem with h1 | rfl
        · exact hl l h1
        · omega

theorem foldl_wordStep_widthInv {width : Nat}
    (hw : ∀ c : Char, runeWidth c ≤ width) :
    ∀ (ws : List (List Char)) (a : WrapAcc), WidthInv width a →
      WidthInv width (ws.foldl (wordStep width) a)
  | [], _, h => h
  | w :: rest, a, h =>
    foldl_wordStep_widthInv hw rest (wordStep width a w)
      (wordStep_widthInv hw h)

theorem wrapParagraph_widthInv {width : Nat}
    (hw : ∀ c : Char, runeWidth c ≤ width) (lines : List (List Char))
    (p : List Char) (hl : ∀ l ∈ lines, strWidth l ≤ width) :
    ∀ l ∈ wrapParagraph width lines p, strWidth l ≤ width := by
  unfold wrapParagraph
  dsimp only
  split
  · intro l hmem
    simp only [List.mem_append, List.mem_singleton] at hmem
    rcases hmem with h1 | rfl
    · exact hl l h1
    · simp [strWidth_nil]
  · split
    · intro l hmem
      simp only [List.mem_append, List.mem_singleton] at hmem
      rcases hmem with h1 | rfl
      · exact hl l h1
      · simp [strWidth_nil]
    · obtain ⟨hl2, hw2, hb2⟩ := foldl_wordStep_widthInv hw (fields p)
        ⟨lines, [], 0⟩ ⟨hl, rfl, Nat.zero_le width⟩
      split
      · exact hl2
      · intro l hmem
        simp only [List.mem_append, List.mem_singleton] at hmem
        rcases hmem with h1 | rfl
        · exact hl2 l h1
        · omega

theorem wrapText_width_le_of_runeWidth_le {width : Nat}
    (hw : ∀ c : Char, runeWidth c ≤ width) (text : List Char) :
    ∀ l ∈ wrapText text width, strWidth l ≤ width := by
  unfold wrapText
  generalize splitNl text = ps
  have main : ∀ (ps : List (List Char)) (acc : List (List Char)),
      (∀ l ∈ acc, strWidth l ≤ width) →
      ∀ l ∈ ps.foldl (wrapParagraph width) acc, strWidth l ≤ width := by
    intro ps
    induction ps with
    | nil => intro acc hacc; exact hacc
    | cons p rest ih =>
      intro acc hacc
      exact ih _ (wrapParagraph_widthInv hw acc p hacc)
  exact main ps [] (by intro l h; simp at h)

/-- C1, counterexample: the claim fails as stated for width 1. At wrap
budget 1 the single double-width character U+4E16 is force-split, and the
emitted line holding it has display width 2 > 1: not every line of
wrap(text, width) fits the budget for every width > 0. -/
theorem claim1_counterexample :
    0 < 1 ∧ wrapText ['世'] 1 = [[], ['世']] ∧
      ¬ (∀ l ∈ wrapText ['世'] 1, strWidth l ≤ 1) := by decide

/-- C1 (amended): for every text and every wrap budget width ≥ 2 - that
is, whenever the budget is at least the display width of every single
rune - every line returned by wrap(text, width) has display width at most
width, including when a word wider than the budget is force-split
character-by-character. -/
theorem claim1_wrap_width_le (text : List Char) (width : Nat)
    (h2 : 2 ≤ width) : ∀ l ∈ wrapText text width, strWidth l ≤ width :=
  wrapText_width_le_of_runeWidth_le
    (fun c => le_trans (runeWidth_le_two c) h2) text

/-- Witness for C1's amended theorem at text "世", width 2: the single
produced line fits the budget. -/
theorem claim1_wrap_width_le_witness : strWidth ['世'] ≤ 2 :=
  claim1_wrap_width_le ['世'] 2 (by decide) ['世'] (by decide)

/-- C2: evaluation of wrapText at the empty text and at a single newline,
width 20. The code returns one empty line for the empty text, not the
empty sequence the spec and the repository's own TestWrapText case expect
(Go strings.Split of the empty string yields one empty chunk); the
single-newline half of the claim does hold: two empty lines. -/
theorem claim2_wrap_empty_eval :
    wrapText [] 20 = [[]] ∧ wrapText ['\n'] 20 = [[], []] := by decide

/-- C7: the bottom progress-bar percentage of renderScreen has no upper
clamp: at 30 input bytes against a 20-byte reference it yields 150, above
100, while the spec formula min(100, floor(100 * input / reference))
yields 100. -/
theorem claim7_progress_unclamped :
    progressPercent 30 20 = 150 ∧ 100 < progressPercent 30 20 ∧
      completionPercentSpec 30 20 = 100 := by decide

/-! Characterization of stepKey, field by field. -/

theorem getD_append_self (l : List Nat) (b : Nat) :
    (l ++ [b]).getD l.length 0 = b := by
  induction l with
  | nil => rfl
  | cons a l ih => simp [ih]

theorem length_and_eq {l m : List Nat} :
    (l.length = m.length ∧ l = m) ↔ l = m :=
  ⟨fun h => h.2, fun h => ⟨by rw [h], h⟩⟩

theorem stepKey_escape (s : TestState) (t : Nat) :
    stepKey s .escape t = s := rfl

theorem stepKey_other (s : TestState) (t : Nat) :
    stepKey s .other t = s := rfl

theorem stepKey_backspace (s : TestState) (t : Nat) :
    stepKey s .backspace t = { s with userInput := s.userInput.dropLast } := by
  obtain ⟨ref, input, e, st, et, ts, tc⟩ := s
  simp only [stepKey]
  cases input with
  | nil => rfl
  | cons a l => simp

theorem stepKey_rune_zero (s : TestState) (t : Nat) {c : Char}
    (hc : c.toNat = 0) : stepKey s (.rune c) t = s := by
  simp only [stepKey, hc, if_pos]

theorem stepKey_referenceText (s : TestState) (ev : KeyEvent) (t : Nat) :
    (stepKey s ev t).referenceText = s.referenceText := by
  cases ev <;> simp only [stepKey, startIfNeeded] <;> (repeat' split) <;> rfl

theorem stepKey_enter_userInput (s : TestState) (t : Nat) :
    (stepKey s .enter t).userInput = s.userInput ++ [10] := by
  simp only [stepKey, startIfNeeded]
  (repeat' split) <;> rfl

theorem stepKey_enter_testStarted (s : TestState) (t : Nat) :
    (stepKey s .enter t).testStarted = true := by
  simp only [stepKey, startIfNeeded]
  split <;> (repeat' split) <;> simp_all

theorem stepKey_enter_startTime (s : TestState) (t : Nat) :
    (stepKey s .enter t).startTime =
      if s.testStarted then s.startTime else t := by
  simp only [stepKey, startIfNeeded]
  split <;> (repeat' split) <;> simp_all

theorem stepKey_enter_endTime (s : TestState) (t : Nat) :
    (stepKey s .enter t).endTime = s.endTime := by
  simp only [stepKey, startIfNeeded]
  (repeat' split) <;> rfl

theorem stepKey_enter_testComplete (s : TestState) (t : Nat) :
    (stepKey s .enter t).testComplete = s.testComplete := by
  simp only [stepKey, startIfNeeded]
  (repeat' split) <;> rfl

theorem stepKey_enter_errors (s : TestState) (t : Nat) :
    (stepKey s .enter t).errors = s.errors +
      (if appendMismatch s.referenceText (s.userInput ++ [10]) then 1
       else 0) := by
  simp only [stepKey, startIfNeeded, appendMismatch]
  by_cases hs : s.testStarted = true <;>
    simp only [hs, if_true, if_false, Bool.false_eq_true, ite_true, ite_false,
      List.length_append, List.length_cons, List.length_nil,
      Nat.add_sub_cancel, getD_append_self] <;>
  · split
    · rename_i hle
      split
      · rename_i hne
        rw [List.getD_eq_getElem?_getD] at hne
        simp [Ne.symm hne]
      · rename_i hne
        rw [not_ne_iff, List.getD_eq_getElem?_getD] at hne
        simp [hne]
    · rename_i hle
      simp [hle]

theorem stepKey_rune_userInput (s : TestState) (t : Nat) {c : Char}
    (hc : c.toNat ≠ 0) :
    (stepKey s (.rune c) t).userInput = s.userInput ++ utf8Bytes c := by
  simp only [stepKey, startIfNeeded, if_neg hc]
  (repeat' split) <;> rfl

theorem stepKey_rune_testStarted (s : TestState) (t : Nat) {c : Char}
    (hc : c.toNat ≠ 0) :
    (stepKey s (.rune c) t).testStarted = true := by
  simp only [stepKey, startIfNeeded, if_neg hc]
  (repeat' split) <;> simp_all

theorem stepKey_rune_startTime (s : TestState) (t : Nat) {c : Char}
    (hc : c.toNat ≠ 0) :
    (stepKey s (.rune c) t).startTime =
      if s.testStarted then s.startTime else t := by
  simp only [stepKey, startIfNeeded, if_neg hc]
  (repeat' split) <;> simp_all

theorem stepKey_rune_testComplete (s : TestState) (t : Nat) {c : Char}
    (hc : c.toNat ≠ 0) :
    (stepKey s (.rune c) t).testComplete =
      if s.userInput ++ utf8Bytes c = s.referenceText then true
      else s.testComplete := by
  simp only [stepKey, startIfNeeded, if_neg hc]
  (repeat' split) <;> simp_all [length_and_eq]

theorem stepKey_rune_endTime (s : TestState) (t : Nat) {c : Char}
    (hc : c.toNat ≠ 0) :
    (stepKey s (.rune c) t).endTime =
      if s.userInput ++ utf8Bytes c = s.referenceText then t
      else s.endTime := by
  simp only [stepKey, startIfNeeded, if_neg hc]
  (repeat' split) <;> simp_all [length_and_eq]

theorem stepKey_rune_errors (s : TestState) (t : Nat) {c : Char}
    (hc : c.toNat ≠ 0) :
    (stepKey s (.rune c) t).errors = s.errors +
      (if appendMismatch s.referenceText (s.userInput ++ utf8Bytes c) then 1
       else 0) := by
  simp only [stepKey, startIfNeeded, if_neg hc]
  (repeat' split) <;> simp_all [appendMismatch]

theorem utf8Bytes_ne_nil (c : Char) : utf8Bytes c ≠ [] := by
  unfold utf8Bytes
  dsimp only
  split
  · simp
  split
  · simp
  split <;> simp

theorem get?_eq_some_getD {l : List Nat} {n : Nat} (h : n < l.length) :
    l.get? n = some (l.getD n 0) := by
  induction l generalizing n with
  | nil => simp at h
  | cons a m ih =>
    cases n with
    | zero => rfl
    | succ k => exact ih (by simpa using h)

/-- C3, counterexample: from the fresh session on reference "a\n",
typing the rune a and then Enter makes userInput equal to the reference
text, yet the session is not Completed: the Enter branch of runTypingTest
performs no completion check. -/
theorem claim3_counterexample :
    (stepKey (stepKey (initState [97, 10]) (.rune 'a') 1) .enter 2).userInput
        = (stepKey (stepKey (initState [97, 10]) (.rune 'a') 1) .enter
            2).referenceText ∧
      (stepKey (stepKey (initState [97, 10]) (.rune 'a') 1) .enter
          2).testComplete = false := by decide

/-- C3 (amended): a newline keystroke always appends the newline byte and
performs the same error accounting as a character append with c newline -
errorCount is incremented exactly when the reference byte at the new
position differs from the newline or the position lies beyond the
reference length - but, unlike a character append, the completion
condition is NOT checked afterwards: the completed flag is left exactly
as it was, and the session can only transition to Completed on a
character (rune) append. -/
theorem claim3_enter_accounting (s : TestState) (t : Nat) :
    (stepKey s .enter t).userInput = s.userInput ++ [10] ∧
      (stepKey s .enter t).errors = s.errors +
        (if appendMismatch s.referenceText (s.userInput ++ [10]) then 1
         else 0) ∧
      (stepKey s .enter t).testComplete = s.testComplete :=
  ⟨stepKey_enter_userInput s t, stepKey_enter_errors s t,
    stepKey_enter_testComplete s t⟩

/-- C6, counterexample: userInput holding the single code point U+00E9
(UTF-8 bytes 195, 169). Backspace removes only the final byte, leaving
the dangling lead byte 195, whereas removing the last character (code
point) would leave the empty string: Go's userInput[:len(userInput)-1]
slices bytes, not code points. -/
theorem claim6_counterexample :
    utf8Bytes 'é' = [195, 169] ∧
      (stepKey { initState [101] with userInput := utf8Bytes 'é' }
          .backspace 0).userInput = [195] ∧
      [195] ≠ ([] : List Nat) := by decide

/-- C6 (amended): backspace removes exactly the last BYTE of userInput
(which is the last code point whenever userInput is ASCII) and changes
nothing else - errorCount, referenceText, the started and completed flags
and both timestamps are untouched; applied to a state with empty
userInput it leaves the entire state unchanged. -/
theorem claim6_backspace_frame (s : TestState) (t : Nat) :
    stepKey s .backspace t = { s with userInput := s.userInput.dropLast } ∧
      (s.userInput = [] → stepKey s .backspace t = s) :=
  ⟨stepKey_backspace s t, fun h => by
    rw [stepKey_backspace s t, h, List.dropLast_nil, ← h]⟩

/-- Witness for C6's amended theorem: backspace on a fresh (empty-input)
session leaves the state unchanged. -/
theorem claim6_backspace_frame_witness :
    stepKey (initState [97]) .backspace 5 = initState [97] :=
  (claim6_backspace_frame (initState [97]) 5).2 rfl

/-- C9: every per-keystroke operation is total. The bounds-checked
variant of the dispatch, in which each Go string indexing returns none
when out of range, always returns some state, and that state is exactly
what the unchecked dispatch computes: under its guarding condition every
index used into userInput or referenceText (always len(userInput)-1
right after an append) is in bounds, and no key event is rejected. -/
theorem claim9_stepKey_total (s : TestState) (ev : KeyEvent) (t : Nat) :
    stepKeyChecked s ev t = some (stepKey s ev t) := by
  cases ev with
  | escape => rfl
  | other => rfl
  | backspace => rfl
  | enter =>
    simp only [stepKeyChecked, stepKey]
    generalize startIfNeeded s t = s1
    by_cases hle : (s1.userInput ++ [10]).length ≤ s1.referenceText.length
    · have hbound : (s1.userInput ++ [10]).length - 1 <
          s1.referenceText.length := by
        simp only [List.length_append, List.length_cons, List.length_nil]
          at hle ⊢
        omega
      rw [if_pos hle, if_pos hle, get?_eq_some_getD hbound]
    · rw [if_neg hle, if_neg hle]
  | rune c =>
    by_cases hc : c.toNat = 0
    · simp only [stepKeyChecked, stepKey, if_pos hc]
    · simp only [stepKeyChecked, stepKey, if_neg hc]
      generalize startIfNeeded s t = s1
      have hlen : 0 < (utf8Bytes c).length :=
        List.length_pos.2 (utf8Bytes_ne_nil c)
      by_cases hle : (s1.userInput ++ utf8Bytes c).length ≤
          s1.referenceText.length
      · have hbound1 : (s1.userInput ++ utf8Bytes c).length - 1 <
            (s1.userInput ++ utf8Bytes c).length := by
          simp only [List.length_append]
          omega
        have hbound2 : (s1.userInput ++ utf8Bytes c).length - 1 <
            s1.referenceText.length := by
          simp only [List.length_append] at hle ⊢
          omega
        rw [if_pos hle, if_pos hle, get?_eq_some_getD hbound1,
          get?_eq_some_getD hbound2]
      · rw [if_neg hle, if_neg hle]

theorem iteTF_eq_decide (p : Prop) [Decidable p] :
    (if p then true else false) = decide p := by
  by_cases h : p <;> simp [h]

theorem runSession_errors (evs : List (KeyEvent × Nat)) : ∀ s : TestState,
    (runSession s evs).errors =
      s.errors + mismCount s.referenceText s.userInput s.testComplete evs := by
  induction evs with
  | nil => intro s; simp [runSession, mismCount]
  | cons p rest ih =>
    obtain ⟨ev, t⟩ := p
    intro s
    cases hc : s.testComplete with
    | true => simp [runSession, mismCount, hc]
    | false =>
      cases ev with
      | escape => simp [runSession, mismCount, hc]
      | other =>
        simp only [runSession, mismCount, hc, Bool.false_eq_true, if_false,
          ite_false]
        rw [stepKey_other, ih s, hc]
      | backspace =>
        simp only [runSession, mismCount, hc, Bool.false_eq_true, if_false,
          ite_false]
        rw [ih (stepKey s .backspace t), stepKey_backspace, hc]
      | enter =>
        simp only [runSession, mismCount, hc, Bool.false_eq_true, if_false,
          ite_false]
        rw [ih (stepKey s .enter t), stepKey_enter_errors,
          stepKey_enter_userInput, stepKey_enter_testComplete,
          stepKey_referenceText, hc]
        omega
      | rune c =>
        by_cases hzero : c.toNat = 0
        · simp only [runSession, mismCount, hc, Bool.false_eq_true, if_false,
            ite_false, hzero, if_pos]
          rw [stepKey_rune_zero s t hzero, ih s, hc]
        · simp only [runSession, mismCount, hc, Bool.false_eq_true, if_false,
            ite_false, hzero, if_neg]
          rw [ih (stepKey s (.rune c) t), stepKey_rune_errors s t hzero,
            stepKey_rune_userInput s t hzero,
            stepKey_rune_testComplete s t hzero, stepKey_referenceText, hc,
            iteTF_eq_decide]
          omega

theorem stepKey_errors_mono (s : TestState) (ev : KeyEvent) (t : Nat) :
    s.errors ≤ (stepKey s ev t).errors := by
  cases ev with
  | escape => exact Nat.le_refl _
  | other => exact Nat.le_refl _
  | backspace => rw [stepKey_backspace]
  | enter => rw [stepKey_enter_errors]; exact Nat.le_add_right _ _
  | rune c =>
    by_cases hzero : c.toNat = 0
    · rw [stepKey_rune_zero s t hzero]
    · rw [stepKey_rune_errors s t hzero]; exact Nat.le_add_right _ _

/-- C4, counterexample: the character-level ledger the claim describes
disagrees with the code, which compares only the final byte of the
appended UTF-8 encoding against the reference byte at the same byte
offset. First session: reference is the single code point U+00A1 (bytes
194, 161) and the one keystroke appends the different code point U+00E1
(bytes 195, 161) - a mismatched append at character position 0, so the
claim predicts errorCount 1 - yet the final bytes collide (161 = 161)
and the code's final errorCount is 0. Second session: reference is the
two code points U+00E9, a (bytes 195, 169, 97) and the keystrokes are x
then a; at character positions 0 and 1 only x mismatches (the second
reference character IS a), so the claim predicts errorCount 1, but both
byte comparisons fail (120 vs 195, then 97 vs 169) and the code's final
errorCount is 2. -/
theorem claim4_counterexample :
    (utf8Bytes '¡' = [194, 161] ∧ utf8Bytes 'á' = [195, 161] ∧
      ('á' : Char) ≠ '¡' ∧
      (runSession (initState (utf8Bytes '¡')) [(.rune 'á', 1)]).errors
        = 0) ∧
      (utf8Bytes 'é' ++ utf8Bytes 'a' = [195, 169, 97] ∧
        (runSession (initState (utf8Bytes 'é' ++ utf8Bytes 'a'))
            [(.rune 'x', 1), (.rune 'a', 2)]).errors = 2) := by decide

/-- C4 (amended): the error ledger is kept at byte granularity, the
granularity of every string operation in runTypingTest (it coincides
with the claim's character-level ledger on ASCII input). Over any
processed keystroke trace, the final errorCount equals the starting
errorCount plus the number of append operations (character or newline)
whose appended final byte failed the code's mismatch test at its own
byte position - in range and different from the reference byte, or
beyond the reference byte length - regardless of interleaved backspaces
(the ghost ledger mismCount replays only the input evolution); and every
single key event leaves errorCount greater than or equal to what it was,
so the count is monotonically non-decreasing and backspace never
decreases it. -/
theorem claim4_error_ledger :
    (∀ (s : TestState) (evs : List (KeyEvent × Nat)),
       (runSession s evs).errors =
         s.errors +
           mismCount s.referenceText s.userInput s.testComplete evs) ∧
      (∀ (s : TestState) (ev : KeyEvent) (t : Nat),
        s.errors ≤ (stepKey s ev t).errors) :=
  ⟨fun s evs => runSession_errors evs s, stepKey_errors_mono⟩

theorem reachable_inv {s : TestState} {t : Nat} (h : Reachable s t) :
    (s.testComplete = true → s.testStarted = true ∧
        s.userInput = s.referenceText ∧ s.startTime ≤ s.endTime) ∧
      (s.testStarted = true → s.startTime ≤ t) := by
  induction h with
  | init ref t0 => simp [initState]
  | tail ev t' hr hnc hle ih =>
    rename_i s t
    obtain ⟨ih1, ih2⟩ := ih
    cases ev with
    | escape =>
      rw [stepKey_escape]
      exact ⟨fun hcc => absurd hcc (by simp [hnc]),
        fun hs => le_trans (ih2 hs) hle⟩
    | other =>
      rw [stepKey_other]
      exact ⟨fun hcc => absurd hcc (by simp [hnc]),
        fun hs => le_trans (ih2 hs) hle⟩
    | backspace =>
      rw [stepKey_backspace]
      exact ⟨fun hcc => absurd hcc (by simp [hnc]),
        fun hs => le_trans (ih2 hs) hle⟩
    | enter =>
      refine ⟨fun hcc => ?_, fun _ => ?_⟩
      · rw [stepKey_enter_testComplete] at hcc
        exact absurd hcc (by simp [hnc])
      · rw [stepKey_enter_startTime]
        split
        · rename_i hs
          exact le_trans (ih2 hs) hle
        · exact Nat.le_refl t'
    | rune c =>
      by_cases hzero : c.toNat = 0
      · rw [stepKey_rune_zero _ _ hzero]
        exact ⟨fun hcc => absurd hcc (by simp [hnc]),
          fun hs => le_trans (ih2 hs) hle⟩
      · have hst : (stepKey s (.rune c) t').startTime ≤ t' := by
          rw [stepKey_rune_startTime _ _ hzero]
          split
          · rename_i hs
            exact le_trans (ih2 hs) hle
          · exact Nat.le_refl t'
        refine ⟨fun hcc => ?_, fun _ => hst⟩
        rw [stepKey_rune_testComplete _ _ hzero] at hcc
        by_cases heq : s.userInput ++ utf8Bytes c = s.referenceText
        · refine ⟨?_, ?_, ?_⟩
          · rw [stepKey_rune_testStarted _ _ hzero]
          · rw [stepKey_rune_userInput _ _ hzero, stepKey_referenceText, heq]
          · rw [stepKey_rune_endTime _ _ hzero, if_pos heq]
            exact hst
        · rw [if_neg heq] at hcc
          exact absurd hcc (by simp [hnc])

/-- C5: in every reachable session state, completed implies started and
userInput byte-for-byte (hence code-point-for-code-point) equal to
referenceText, and the startTime recorded at the first keystroke is at
most the endTime recorded by the completing transition, given that
wall-clock readings never decrease along the session. -/
theorem claim5_completed_invariant {s : TestState} {t : Nat}
    (h : Reachable s t) (hc : s.testComplete = true) :
    s.testStarted = true ∧ s.userInput = s.referenceText ∧
      s.startTime ≤ s.endTime :=
  (reachable_inv h).1 hc

/-- Witness for C5 at the session on reference "a" completed by typing
the rune a at time 3. -/
theorem claim5_completed_invariant_witness :
    (stepKey (initState [97]) (.rune 'a') 3).testStarted = true ∧
      (stepKey (initState [97]) (.rune 'a') 3).userInput =
        (stepKey (initState [97]) (.rune 'a') 3).referenceText ∧
      (stepKey (initState [97]) (.rune 'a') 3).startTime ≤
        (stepKey (initState [97]) (.rune 'a') 3).endTime :=
  claim5_completed_invariant
    (Reachable.tail (.rune 'a') 3 (Reachable.init [97] 0) rfl (Nat.zero_le 3))
    (by decide)
/-- C8: the WPM calculation (with float64 arithmetic modelled exactly
over the rationals): zero whenever elapsed < 1 second, hence wpm(x, 0.5)
is 0 for every x; wpm(50, 60) = 10; and for elapsed >= 1 the value is
exactly (charCount / 5) / (elapsed / 60), the integer quotient of the
byte count by 5 divided by the elapsed minutes - the negative-result
guard never fires there since both operands are non-negative. -/
theorem claim8_wpm :
    (∀ x : Nat, wpmCalc x (1 / 2) = 0) ∧ wpmCalc 50 60 = 10 ∧
      (∀ (c : Nat) (q : ℚ), q < 1 → wpmCalc c q = 0) ∧
      (∀ (c : Nat) (q : ℚ), 1 ≤ q →
        wpmCalc c q = ((c / 5 : Nat) : ℚ) / (q / 60)) := by
  refine ⟨?_, ?_, ?_, ?_⟩
  · intro x
    simp only [wpmCalc]
    rw [if_pos (Or.inr (by norm_num))]
  · norm_num [wpmCalc]
  · intro c q hq
    simp only [wpmCalc]
    rw [if_pos (Or.inr hq)]
  · intro c q hq
    have hraw : (0 : ℚ) ≤ ((c / 5 : Nat) : ℚ) / (q / 60) :=
      div_nonneg (Nat.cast_nonneg _)
        (div_nonneg (le_trans zero_le_one hq) (by norm_num))
    simp only [wpmCalc]
    rw [if_neg (by push_neg; exact ⟨hraw, hq⟩)]

/-- Witness for C8 at charCount 7 and elapsed times 0.5 and 120. -/
theorem claim8_wpm_witness :
    wpmCalc 7 (1 / 2) = 0 ∧
      wpmCalc 7 120 = ((7 / 5 : Nat) : ℚ) / (120 / 60) :=
  ⟨claim8_wpm.1 7, claim8_wpm.2.2.2 7 120 (by norm_num)⟩

/-! Cleanliness of wrapped lines (claim C10's machinery). -/

theorem joinSp_singleton (w : List Char) : joinSp [w] = w := rfl

theorem joinSp_cons_ne (w : List Char) {ws : List (List Char)}
    (h : ws ≠ []) : joinSp (w :: ws) = w ++ ' ' :: joinSp ws := by
  cases ws with
  | nil => exact absurd rfl h
  | cons v rest => rfl

theorem joinSp_concat (ws : List (List Char)) (w : List Char) (h : ws ≠ []) :
    joinSp (ws ++ [w]) = joinSp ws ++ ' ' :: w := by
  induction ws with
  | nil => exact absurd rfl h
  | cons v rest ih =>
    cases rest with
    | nil => rfl
    | cons v2 rest2 =>
      rw [List.cons_append,
        joinSp_cons_ne v (by simp), joinSp_cons_ne v (by simp),
        ih (by simp), List.append_assoc]
      rfl

theorem joinSp_concat_append (ws : List (List Char)) (w x : List Char) :
    joinSp (ws ++ [w]) ++ x = joinSp (ws ++ [w ++ x]) := by
  induction ws with
  | nil => simp [joinSp_singleton]
  | cons v rest ih =>
    rw [List.cons_append, joinSp_cons_ne v (by simp), List.cons_append,
      joinSp_cons_ne v (by simp), ← ih]
    simp [List.append_assoc]

theorem clean_nil : Clean [] :=
  ⟨[], fun w hw => absurd hw (List.not_mem_nil w), rfl⟩

theorem clean_of_chars {l : List Char}
    (h : ∀ c ∈ l, goIsSpace c = false) : Clean l := by
  cases hl : l with
  | nil => exact clean_nil
  | cons a m =>
    refine ⟨[a :: m], ?_, (joinSp_singleton _).symm⟩
    intro w hw
    rcases List.mem_singleton.1 hw with rfl
    exact ⟨by simp, fun c hc => h c (hl ▸ hc)⟩

theorem clean_append_word {l w : List Char} (hc : Clean l) (hl : l ≠ [])
    (hw : NoWS w) : Clean (l ++ ' ' :: w) := by
  obtain ⟨ws, hws, rfl⟩ := hc
  have hne : ws ≠ [] := by rintro rfl; exact hl rfl
  refine ⟨ws ++ [w], ?_, (joinSp_concat ws w hne).symm⟩
  intro v hv
  rcases List.mem_append.1 hv with h1 | h1
  · exact hws v h1
  · rcases List.mem_singleton.1 h1 with rfl
    exact hw

theorem clean_append_chars {l x : List Char} (hc : Clean l)
    (hx : ∀ c ∈ x, goIsSpace c = false) : Clean (l ++ x) := by
  obtain ⟨ws, hws, rfl⟩ := hc
  rcases List.eq_nil_or_concat ws with rfl | ⟨ws0, wlast, rfl⟩
  · simpa using clean_of_chars hx
  · rw [List.concat_eq_append] at hws ⊢
    refine ⟨ws0 ++ [wlast ++ x], ?_, joinSp_concat_append ws0 wlast x⟩
    intro v hv
    rcases List.mem_append.1 hv with h1 | h1
    · exact hws v (List.mem_append.2 (Or.inl h1))
    · rcases List.mem_singleton.1 h1 with rfl
      have hwlast : NoWS wlast := hws wlast (List.mem_append.2 (Or.inr
        (List.mem_singleton.2 rfl)))
      refine ⟨by simp [hwlast.1], fun ch hch => ?_⟩
      rcases List.mem_append.1 hch with h2 | h2
      · exact hwlast.2 ch h2
      · exact hx ch h2

theorem fieldsAux_noWS : ∀ (s acc : List Char),
    (∀ c ∈ acc, goIsSpace c = false) → ∀ w ∈ fieldsAux acc s, NoWS w := by
  intro s
  induction s with
  | nil =>
    intro acc hacc w hw
    unfold fieldsAux at hw
    split at hw
    · simp at hw
    · rename_i hne
      rcases List.mem_singleton.1 hw with rfl
      exact ⟨by simpa using hne, fun c hc => hacc c (List.mem_reverse.1 hc)⟩
  | cons a rest ih =>
    intro acc hacc w hw
    unfold fieldsAux at hw
    split at hw
    · split at hw
      · exact ih [] (by simp) w hw
      · rename_i hne
        rcases List.mem_cons.1 hw with rfl | h1
        · exact ⟨by simpa using hne,
            fun c hc => hacc c (List.mem_reverse.1 hc)⟩
        · exact ih [] (by simp) w h1
    · rename_i hsp
      refine ih (a :: acc) ?_ w hw
      intro c hc
      rcases List.mem_cons.1 hc with rfl | h1
      · simpa using hsp
      · exact hacc c h1

theorem fields_noWS (s : List Char) : ∀ w ∈ fields s, NoWS w :=
  fieldsAux_noWS s [] (by simp)

theorem splitStep_splitInv {width : Nat} {a : WrapAcc} {r : Char}
    (hr : goIsSpace r = false) (h : SplitInv a) :
    SplitInv (splitStep width a r) := by
  obtain ⟨lines, cur, cw⟩ := a
  obtain ⟨h1, h2, h3⟩ := h
  dsimp [SplitInv] at *
  unfold splitStep
  dsimp only
  split
  · refine ⟨?_, ?_, by simp [strWidth_singleton]⟩
    · intro l hl
      simp only [List.mem_append, List.mem_singleton] at hl
      rcases hl with hl | rfl
      · exact h1 l hl
      · exact clean_of_chars h2
    · intro c hc
      rcases List.mem_singleton.1 hc with rfl
      exact hr
  · refine ⟨h1, ?_, by simp [strWidth_concat, h3]⟩
    intro c hc
    rcases List.mem_append.1 hc with h4 | h4
    · exact h2 c h4
    · rcases List.mem_singleton.1 h4 with rfl
      exact hr

theorem foldl_splitStep_splitInv {width : Nat} :
    ∀ (word : List Char) (a : WrapAcc),
      (∀ c ∈ word, goIsSpace c = false) → SplitInv a →
      SplitInv (word.foldl (splitStep width) a)
  | [], _, _, h => h
  | r :: rest, a, hw, h =>
    foldl_splitStep_splitInv rest (splitStep width a r)
      (fun c hc => hw c (List.mem_cons_of_mem r hc))
      (splitStep_splitInv (hw r (List.mem_cons_self r rest)) h)

theorem wordStep_cleanInv {width : Nat} {a : WrapAcc} {word : List Char}
    (hword : NoWS word) (h : CleanInv a) :
    CleanInv (wordStep width a word) := by
  obtain ⟨lines, cur, cw⟩ := a
  obtain ⟨h1, h2, h3⟩ := h
  dsimp [CleanInv] at *
  unfold wordStep
  dsimp only
  split
  · rename_i hwide
    set lines1 := if cur = [] then lines else lines ++ [cur] with hdef
    have hlines1 : ∀ l ∈ lines1, Clean l := by
      rw [hdef]
      split
      · exact h1
      · intro l hl
        simp only [List.mem_append, List.mem_singleton] at hl
        rcases hl with hl | rfl
        · exact h1 l hl
        · exact h2
    have hs : SplitInv (splitWord width lines1 word) :=
      foldl_splitStep_splitInv word ⟨lines1, [], 0⟩ hword.2
        ⟨hlines1, by simp, rfl⟩
    obtain ⟨hs1, hs2, hs3⟩ := hs
    split
    · exact ⟨hs1, clean_nil, rfl⟩
    · exact ⟨hs1, clean_of_chars hs2, hs3⟩
  · rename_i hww
    split
    · rename_i hpos
      have hcur : cur ≠ [] := by
        intro hnil
        rw [hnil] at h3
        simp [strWidth] at h3
        omega
      split
      · rename_i hfit
        refine ⟨h1, clean_append_word h2 hcur hword, ?_⟩
        simp [strWidth_append, strWidth_cons, runeWidth_space, h3]
        omega
      · rename_i hfit
        refine ⟨?_, clean_of_chars hword.2, rfl⟩
        intro l hl
        simp only [List.mem_append, List.mem_singleton] at hl
        rcases hl with hl | rfl
        · exact h1 l hl
        · exact h2
    · rename_i hpos
      split
      · rename_i hfit
        exact ⟨h1, clean_append_chars h2 hword.2,
          by simp [strWidth_append, h3]⟩
      · rename_i hfit
        refine ⟨?_, clean_of_chars hword.2, rfl⟩
        intro l hl
        simp only [List.mem_append, List.mem_singleton] at hl
        rcases hl with hl | rfl
        · exact h1 l hl
        · exact h2

theorem foldl_wordStep_cleanInv {width : Nat} :
    ∀ (ws : List (List Char)) (a : WrapAcc),
      (∀ w ∈ ws, NoWS w) → CleanInv a →
      CleanInv (ws.foldl (wordStep width) a)
  | [], _, _, h => h
  | w :: rest, a, hws, h =>
    foldl_wordStep_cleanInv rest (wordStep width a w)
      (fun v hv => hws v (List.mem_cons_of_mem w hv))
      (wordStep_cleanInv (hws w (List.mem_cons_self w rest)) h)

theorem wrapParagraph_clean {width : Nat} (lines : List (List Char))
    (p : List Char) (hl : ∀ l ∈ lines, Clean l) :
    ∀ l ∈ wrapParagraph width lines p, Clean l := by
  unfold wrapParagraph
  dsimp only
  split
  · intro l hmem
    simp only [List.mem_append, List.mem_singleton] at hmem
    rcases hmem with h1 | rfl
    · exact hl l h1
    · exact clean_nil
  · split
    · intro l hmem
      simp only [List.mem_append, List.mem_singleton] at hmem
      rcases hmem with h1 | rfl
      · exact hl l h1
      · exact clean_nil
    · obtain ⟨hc1, hc2, hc3⟩ := foldl_wordStep_cleanInv (fields p)
        ⟨lines, [], 0⟩ (fields_noWS p) ⟨hl, clean_nil, rfl⟩
      split
      · exact hc1
      · intro l hmem
        simp only [List.mem_append, List.mem_singleton] at hmem
        rcases hmem with h1 | rfl
        · exact hc1 l h1
        · exact hc2

theorem wrapText_clean (text : List Char) (width : Nat) :
    ∀ l ∈ wrapText text width, Clean l := by
  unfold wrapText
  generalize splitNl text = ps
  have main : ∀ (ps : List (List Char)) (acc : List (List Char)),
      (∀ l ∈ acc, Clean l) →
      ∀ l ∈ ps.foldl (wrapParagraph width) acc, Clean l := by
    intro ps
    induction ps with
    | nil => intro acc hacc; exact hacc
    | cons p rest ih =>
      intro acc hacc
      exact ih _ (wrapParagraph_clean acc p hacc)
  exact main ps [] (by intro l h; simp at h)

/-- C10: every line produced by wrapText is, exactly, a single-space
separated join of non-empty whitespace-free tokens - so it has no leading
or trailing whitespace, contains no whitespace other than the single
spaces between adjacent tokens, and every whitespace run of the source
paragraph has been collapsed; and wrapping is not content-preserving:
concatenating the lines of wrap("a  b", 10) gives "a b", not the
original "a  b". -/
theorem claim10_lines_clean_not_preserving :
    (∀ (text : List Char) (width : Nat), 0 < width →
       ∀ l ∈ wrapText text width, Clean l) ∧
      (wrapText ['a', ' ', ' ', 'b'] 10).flatten = ['a', ' ', 'b'] ∧
      ['a', ' ', 'b'] ≠ ['a', ' ', ' ', 'b'] :=
  ⟨fun text width _ => wrapText_clean text width, by decide, by decide⟩

/-- Witness for C10 at text "a  b" (double space), width 10: the single
produced line "a b" is clean. -/
theorem claim10_witness : Clean ['a', ' ', 'b'] :=
  claim10_lines_clean_not_preserving.1 ['a', ' ', ' ', 'b'] 10 (by decide)
    ['a', ' ', 'b'] (by decide)

end Keysmash
